import Mathlib

/-!
Verification of the shipment-invoice reconciliation engine
(`hub (1)/sku_master (1).py`): identifier expansion, package-unit
explosion, subset matching (exact and greedy-local), billing-mode
classification and billing verdict rules.

All numeric values that are Python floats in the source are modelled as
rationals (`ℚ`); strings are modelled as `String` / `List Char`.
-/

namespace SkuMaster

/-- `TOL = 0.10`, the fixed system-wide matching tolerance. -/
def TOL : ℚ := 1/10

/-- `MAX_EXACT_N = 18`, the pool-size cap for the exact matcher. -/
def MAX_EXACT_N : ℕ := 18

/-- `close2(a, b, tol)` from the source: `abs(a - b) <= tol` (both
arguments are always present floats at the call sites embedded here). -/
def close2 (a b tol : ℚ) : Prop := |a - b| ≤ tol

instance (a b tol : ℚ) : Decidable (close2 a b tol) :=
  inferInstanceAs (Decidable (|a - b| ≤ tol))

/-! ## Identifier expansion (`expand_combined_codes`)

The Python function works on strings; we model the string body as a
`List Char` and mirror each step: `code.replace(" ", "")`,
`code.split(",")`, the regular expression
`^(.*-)(\d+)(-[A-Za-z0-9]+)?$` (greedy, leftmost-longest `.*`), the
`rsplit("-", 1)` fallback, `pad4`, and the token loop over a Python
`set` (modelled as a duplicate-free insertion-ordered list). -/

/-- Python `s.split(sep)` on a character list. -/
def splitChar (sep : Char) : List Char → List (List Char)
  | [] => [[]]
  | c :: cs =>
    match splitChar sep cs with
    | [] => if c = sep then [[], []] else [[c]]
    | h :: t => if c = sep then [] :: h :: t else (c :: h) :: t

/-- Digits of a natural number, most significant first (`fuel`-driven so
that it evaluates by kernel reduction; `fuel ≥ n` suffices). -/
def natDigitsAux : ℕ → ℕ → List Char
  | 0, _ => []
  | fuel + 1, n =>
    if n = 0 then []
    else natDigitsAux fuel (n / 10) ++ [Char.ofNat ('0'.toNat + n % 10)]

/-- Python `int(x)` on a digit string. -/
def natOfDigits (cs : List Char) : ℕ :=
  cs.foldl (fun a c => 10 * a + (c.toNat - '0'.toNat)) 0

/-- Python `f"{int(x):04d}"`: parse the digits and re-render them
zero-padded to (at least) four digits. -/
def pad4 (cs : List Char) : List Char :=
  let n := natOfDigits cs
  let ds := if n = 0 then ['0'] else natDigitsAux (n + 1) n
  if ds.length < 4 then List.replicate (4 - ds.length) '0' ++ ds else ds

/-- One candidate split of the base at the `'-'` ending at position `i`,
for the regular expression `^(.*-)(\d+)(-[A-Za-z0-9]+)?$`: group 1 is
`base[0..i]` (ending in `'-'`), group 2 a nonempty maximal digit run,
group 3 either empty or `'-'` followed by a nonempty alphanumeric run
reaching the end of the string. -/
def tryAt (base : List Char) (i : ℕ) :
    Option (List Char × List Char × List Char) :=
  let a := base.take (i + 1)
  let r := base.drop (i + 1)
  let d := r.takeWhile (fun c => c.isDigit)
  let rest := r.drop d.length
  if d = [] then none
  else
    match rest with
    | [] => some (a, d, [])
    | c :: t =>
      if c = '-' ∧ t ≠ [] ∧ t.all (fun x => x.isAlphanum) then
        some (a, d, rest)
      else none

/-- Positions of `'-'` in `cs`, rightmost first (the order in which a
backtracking greedy `.*-` tries to end group 1). -/
def dashPositionsDesc (cs : List Char) : List ℕ :=
  ((List.range cs.length).filter (fun i => cs.getD i ' ' = '-')).reverse

/-- `re.match(r"^(.*-)(\d+)(-[A-Za-z0-9]+)?$", base)`: the greedy `.*`
takes the rightmost `'-'` split that lets the rest of the pattern
match. -/
def matchBase (base : List Char) :
    Option (List Char × List Char × List Char) :=
  (dashPositionsDesc base).findSome? (tryAt base)

/-- `re.match(r"^(\d+)(-[A-Za-z0-9]+)?$", ns)` (the fallback branch's
anchored numeric pattern). -/
def matchNumSub (ns : List Char) : Option (List Char × List Char) :=
  let d := ns.takeWhile (fun c => c.isDigit)
  let rest := ns.drop d.length
  if d = [] then none
  else
    match rest with
    | [] => some (d, [])
    | c :: t =>
      if c = '-' ∧ t ≠ [] ∧ t.all (fun x => x.isAlphanum) then
        some (d, rest)
      else none

/-- `base.rsplit("-", 1)[0] + "-"` and `base.rsplit("-", 1)[-1]`. -/
def rsplitDash (base : List Char) : List Char × List Char :=
  match (dashPositionsDesc base).head? with
  | some j => (base.take (j + 1), base.drop (j + 1))
  | none => (base ++ ['-'], base)

/-- The base-analysis of `expand_combined_codes`: leading part (always
ending in `'-'`), the numeric block if one was found, and the sub-suffix
(`""` when absent). -/
def parseBase (base : List Char) :
    List Char × Option (List Char) × List Char :=
  match matchBase base with
  | some (a, d, s) => (a, some d, s)
  | none =>
    let (pfx, ns) := rsplitDash base
    match matchNumSub ns with
    | some (d, s) => (pfx, some d, s)
    | none => (pfx, none, [])

/-- `expanded.add(x)` on a Python set, modelled as appending to an
insertion-ordered duplicate-free list. -/
def addIfNew (acc : List (List Char)) (x : List Char) : List (List Char) :=
  if x ∈ acc then acc else acc ++ [x]

/-- The per-token body of the expansion loop. -/
def tokenStep (pfx : List Char) (numFound : Bool) (sub : List Char)
    (acc : List (List Char)) (t : List Char) : List (List Char) :=
  if '-' ∈ t then
    let np := t.takeWhile (fun c => c ≠ '-')
    let sp := (t.drop np.length).drop 1
    if np ≠ [] ∧ np.all (fun c => c.isDigit) then
      addIfNew acc (pfx ++ pad4 np ++ '-' :: sp)
    else addIfNew acc t
  else
    if t ≠ [] ∧ t.all (fun c => c.isDigit) ∧ numFound then
      addIfNew acc (pfx ++ pad4 t ++ sub)
    else addIfNew acc t

/-- `expand_combined_codes(code)`: expand comma-joined shorthand into a
set of full codes (the set is modelled as the insertion-ordered
duplicate-free list of added codes). -/
def expand_combined_codes (code : String) : List String :=
  let cs := code.toList
  if ¬ (',' ∈ cs) then [code]
  else
    let parts := splitChar ',' (cs.filter (fun c => c ≠ ' '))
    let base := parts.headD []
    let (pfx, num?, sub) := parseBase base
    ((parts.tail.foldl (tokenStep pfx num?.isSome sub) [base])).map
      (fun l => String.mk l)

/-! ## Package-unit explosion (`explode_by_pkg`) -/

/-- The fields of one shipment row that `explode_by_pkg` reads:
`int(row.get("Pkg", 0))` (modelled as the already-truncated integer),
`G.W(kgs)` and `CBM`. -/
structure ShipRec where
  pkg : ℤ
  gw : ℚ
  cbm : ℚ
deriving Repr, DecidableEq

/-- One exploded row: `Original_Index`, `Pkg_Unit` (1-based), `Pkg = 1`,
and the per-package unit weight and volume. -/
structure PkgUnit where
  origIdx : ℕ
  unitNo : ℕ
  pkg : ℕ
  gw : ℚ
  cbm : ℚ
deriving Repr, DecidableEq

/-- The units contributed by the record at index `idx`: none when
`pkg_count <= 0`, otherwise `pkg_count` units each carrying
`total / pkg_count`. -/
def explodeRecord (idx : ℕ) (r : ShipRec) : List PkgUnit :=
  if r.pkg ≤ 0 then []
  else
    let p := r.pkg.toNat
    (List.range p).map (fun u => ⟨idx, u + 1, 1, r.gw / p, r.cbm / p⟩)

/-- `explode_by_pkg`: iterate the rows (index order) and concatenate each
record's units. -/
def explode_by_pkg (recs : List ShipRec) : List PkgUnit :=
  (recs.enum.map (fun pr => explodeRecord pr.1 pr.2)).flatten

/-! ## Billing-mode classification and rate table -/

def BILLING_MODE_RATE : List String :=
  ["DSV Outdoor", "DSV MZP", "DSV Indoor", "DSV Al Markaz"]

def BILLING_MODE_PASSTHROUGH : List String :=
  ["AAA Storage", "Hauler Indoor", "DHL Warehouse"]

def BILLING_MODE_NO_CHARGE : List String := ["MOSB"]

/-- `WAREHOUSE_RATES`: contract rate (AED/sqm/month) per warehouse. -/
def WAREHOUSE_RATES : List (String × ℚ) :=
  [("DSV Outdoor", 18), ("DSV MZP", 33), ("DSV Indoor", 47),
   ("DSV Al Markaz", 47), ("AAA Storage", 0), ("Hauler Indoor", 0),
   ("DHL Warehouse", 0), ("MOSB", 0)]

/-- `get_warehouse_rate` / `get_rate`: `WAREHOUSE_RATES.get(wh, 0.0)`. -/
def get_warehouse_rate (wh : String) : ℚ :=
  (WAREHOUSE_RATES.lookup wh).getD 0

/-- `get_billing_mode(warehouse)`: empty input is `unknown`; otherwise
strip and look the name up in the three mode sets. -/
def get_billing_mode (warehouse : String) : String :=
  if warehouse = "" then "unknown"
  else
    let wc := warehouse.trim
    if wc ∈ BILLING_MODE_RATE then "rate"
    else if wc ∈ BILLING_MODE_PASSTHROUGH then "passthrough"
    else if wc ∈ BILLING_MODE_NO_CHARGE then "no-charge"
    else "unknown"

/-! ## Monthly billing verdicts (`create_monthly_charges_match`,
`create_exceptions_and_evidence`) -/

/-- Round half to even at integer precision (the tie behaviour of
Python's `round`, modelled in exact arithmetic). -/
def roundHalfEven (x : ℚ) : ℤ :=
  let f := ⌊x⌋
  let r := x - f
  if r < 1/2 then f
  else if 1/2 < r then f + 1
  else if f % 2 = 0 then f else f + 1

/-- Python `round(x, 2)` modelled in exact arithmetic. -/
def round2 (x : ℚ) : ℚ := (roundHalfEven (100 * x) : ℚ) / 100

/-- `_recalc(row)`: the recomputed system amount by billing mode. In
`rate` mode `sysAvg` is `System_Avg_SQM` and `rate` the contract rate;
in `passthrough` mode the row's stored `System_Amount` is returned
verbatim. -/
def recalcAmount (mode : String) (sysAvg rate sysAmt : ℚ) : ℚ :=
  if mode = "rate" then round2 (sysAvg * rate)
  else if mode = "passthrough" then sysAmt
  else 0

/-- `Δ_% = 0` when the invoice amount is `0`, else
`(invoice - system) / invoice`. -/
def deltaPct (inv sys : ℚ) : ℚ := if inv = 0 then 0 else (inv - sys) / inv

/-- `_status(row)`: the PASS/FAIL verdict by billing mode
(`dpct = deltaPct inv sys`, `thr` = `delta_thr`, default `0.02`). -/
def statusOf (mode : String) (inv sys dpct thr : ℚ) : String :=
  if mode = "rate" then if |dpct| ≤ thr then "PASS" else "FAIL"
  else if mode = "passthrough" then
    if |inv - sys| < 1/2 then "PASS" else "FAIL"
  else if mode = "no-charge" then if inv = 0 then "PASS" else "FAIL"
  else "FAIL"

/-- `_grade(row)` from `create_exceptions_and_evidence`: in `rate` mode
grade PASS when `|Δ%| ≤ delta_thr`, WARN when `|Δ%| ≤ 0.05`, else FAIL;
other modes keep the status verdict. -/
def gradeOf (mode : String) (dpct thr : ℚ) (status : String) : String :=
  if mode = "rate" then
    if |dpct| ≤ thr then "PASS"
    else if |dpct| ≤ 1/20 then "WARN"
    else "FAIL"
  else status

/-- Modelled from the spec: the prorated-charge calculator
(`calculate_monthly_invoice_charges_prorated` from module
`hvdc_excel_reporter_final_sqm_rev`, which is not part of this
repository snapshot) fills a passthrough warehouse's stored
`System_Amount` (`monthly_charge_aed`) with the invoice-reported amount
injected through the `passthrough_amounts` dictionary: "passthrough:
system amount = invoice-reported amount verbatim". -/
def passthroughSystemAmount (invoiceAmount : ℚ) : ℚ := invoiceAmount

/-! ## Subset matcher

The candidate pool is modelled by its two value columns
(`values_gw`, `values_cbm : List ℚ`); row labels are the positions
`0, …, n-1`, so a picked subset is a list of positions. -/

/-- `arr[list(idxs)].sum()`: sum of the values at the given positions. -/
def sumAt (vs : List ℚ) (idxs : List ℕ) : ℚ :=
  (idxs.map (fun i => vs.getD i 0)).sum

/-- `itertools.combinations`: all `k`-element subsequences of `xs` in
the fixed lexicographic enumeration order (subsequences containing the
first element come first). -/
def comb : ℕ → List α → List (List α)
  | 0, _ => [[]]
  | _ + 1, [] => []
  | k + 1, x :: xs => (comb k xs).map (x :: ·) ++ comb (k + 1) xs

/-- The result quadruple `(found, picked, sum_gw, sum_cbm)` of the
matchers (`None` sums modelled as `none`). -/
structure MatchOut where
  found : Bool
  picked : List ℕ
  sum_gw : Option ℚ
  sum_cbm : Option ℚ
deriving Repr, DecidableEq

/-- `exact_subset_match`: enumerate all `k`-combinations of row
positions in order and return the first whose weight and volume sums are
both within `tol` of the targets. -/
def exact_subset_match (gws cbms : List ℚ) (k : ℕ) (gwT cbmT tol : ℚ) :
    MatchOut :=
  match (comb k (List.range gws.length)).find?
      (fun c => decide (close2 (sumAt gws c) gwT tol) &&
                decide (close2 (sumAt cbms c) cbmT tol)) with
  | some c => ⟨true, c, some (sumAt gws c), some (sumAt cbms c)⟩
  | none => ⟨false, [], none, none⟩

/-- `1e-6`, the clamp used in the score denominators. -/
def EPS : ℚ := 1/1000000

/-- The combined greedy score of item `i`:
`0.6 * |ratio_i - ratio_target| + 0.4 * (|gw_norm_i - mean gw_norm| +
|cbm_norm_i - mean cbm_norm|)`, with all denominators clamped below by
`1e-6` (`np.clip` / `max`). -/
def combinedScore (gws cbms : List ℚ) (gwT cbmT : ℚ) (i : ℕ) : ℚ :=
  let n : ℚ := gws.length
  let ratioT := gwT / max cbmT EPS
  let ratio := gws.getD i 0 / max (cbms.getD i 0) EPS
  let gwNormMean := ((gws.map (fun w => w / max gwT EPS)).sum) / n
  let cbmNormMean := ((cbms.map (fun c => c / max cbmT EPS)).sum) / n
  3/5 * |ratio - ratioT| +
    2/5 * (|gws.getD i 0 / max gwT EPS - gwNormMean| +
           |cbms.getD i 0 / max cbmT EPS - cbmNormMean|)

/-- `np.argsort(score)` over positions `0, …, n-1`, modelled as a
deterministic stable sort by score (NumPy's default introsort fixes ties
in an implementation-defined order; no claim depends on tie order). -/
def argsortScore (s : ℕ → ℚ) (n : ℕ) : List ℕ :=
  (List.range n).insertionSort (fun i j => s i ≤ s j)

/-- `calculate_error(indices)`: total absolute error of a selection.
(The source returns `float('inf')` for an empty selection; that branch
is unreachable because every selection reaching it has `k ≥ 1`
elements.) -/
def calcError (gws cbms : List ℚ) (gwT cbmT : ℚ) (idxs : List ℕ) : ℚ :=
  |sumAt gws idxs - gwT| + |sumAt cbms idxs - cbmT|

/-- The mutable state of one local-search pass: `current_indices`,
`best_error`, and the `improved` flag. -/
structure PassState where
  cur : List ℕ
  bestErr : ℚ
  improved : Bool
deriving Repr, DecidableEq

/-- The inner `for in_idx in range(n)` scan for slot `i`: track the best
strictly-improving replacement (`best_replacement`, `best_local_error`),
skipping already-selected rows, with the source's early `break` when a
zero-error replacement is found. -/
def scanGo (gws cbms : List ℚ) (gwT cbmT : ℚ) (cur : List ℕ) (i : ℕ) :
    List ℕ → Option ℕ → ℚ → Option ℕ × ℚ
  | [], best, ble => (best, ble)
  | j :: rest, best, ble =>
    if j ∈ cur then scanGo gws cbms gwT cbmT cur i rest best ble
    else
      let te := calcError gws cbms gwT cbmT (cur.set i j)
      if te < ble then
        if te = 0 then (some j, te)
        else scanGo gws cbms gwT cbmT cur i rest (some j) te
      else scanGo gws cbms gwT cbmT cur i rest best ble

/-- The body of `for i in range(k)`: scan for the best replacement of
slot `i`, commit it when strictly improving, and return early
(`Sum.inl`) when the committed selection is within tolerance of both
targets. -/
def slotStep (gws cbms : List ℚ) (gwT cbmT tol : ℚ) (st : PassState)
    (i : ℕ) : MatchOut ⊕ PassState :=
  match scanGo gws cbms gwT cbmT st.cur i (List.range gws.length) none
      st.bestErr with
  | (none, _) => .inr st
  | (some r, ble) =>
    if ble < st.bestErr then
      let cur' := st.cur.set i r
      let gw := sumAt gws cur'
      let cbm := sumAt cbms cur'
      if close2 gw gwT tol ∧ close2 cbm cbmT tol then
        .inl ⟨true, cur', some gw, some cbm⟩
      else .inr ⟨cur', ble, true⟩
    else .inr st

/-- Run the slot loop over the given slot indices. -/
def passGo (gws cbms : List ℚ) (gwT cbmT tol : ℚ) :
    List ℕ → PassState → MatchOut ⊕ PassState
  | [], st => .inr st
  | i :: is, st =>
    match slotStep gws cbms gwT cbmT tol st i with
    | .inl r => .inl r
    | .inr st' => passGo gws cbms gwT cbmT tol is st'

/-- One full local-search pass (`for i in range(k)` with a fresh
`improved = False`). -/
def onePass (gws cbms : List ℚ) (gwT cbmT tol : ℚ) (k : ℕ)
    (cur : List ℕ) (bestErr : ℚ) : MatchOut ⊕ PassState :=
  passGo gws cbms gwT cbmT tol (List.range k) ⟨cur, bestErr, false⟩

/-- The final recomputation after the pass loop ends. -/
def finalize (gws cbms : List ℚ) (gwT cbmT tol : ℚ) (best : List ℕ) :
    MatchOut :=
  let gw := sumAt gws best
  let cbm := sumAt cbms best
  ⟨decide (close2 gw gwT tol ∧ close2 cbm cbmT tol), best, some gw,
    some cbm⟩

/-- `for iteration in range(max_iter)`: run passes until an early
within-tolerance return, a pass with no improving swap, or fuel
exhaustion; also counts the executed passes. -/
def loop (gws cbms : List ℚ) (gwT cbmT tol : ℚ) (k : ℕ) :
    ℕ → List ℕ → ℚ → ℕ → MatchOut × ℕ
  | 0, best, _, passes => (finalize gws cbms gwT cbmT tol best, passes)
  | fuel + 1, best, bestErr, passes =>
    match onePass gws cbms gwT cbmT tol k best bestErr with
    | .inl r => (r, passes + 1)
    | .inr st =>
      if st.improved then
        loop gws cbms gwT cbmT tol k fuel st.cur st.bestErr (passes + 1)
      else (finalize gws cbms gwT cbmT tol best, passes + 1)

/-- `robust_greedy_local` together with the number of local-search
passes it executed. -/
def robustRun (gws cbms : List ℚ) (k : ℕ) (gwT cbmT tol : ℚ)
    (maxIter : ℕ) : MatchOut × ℕ :=
  let n := gws.length
  if n < k ∨ k = 0 then (⟨false, [], none, none⟩, 0)
  else
    let picked := (argsortScore (combinedScore gws cbms gwT cbmT) n).take k
    let gw := sumAt gws picked
    let cbm := sumAt cbms picked
    if close2 gw gwT tol ∧ close2 cbm cbmT tol then
      (⟨true, picked, some gw, some cbm⟩, 0)
    else
      loop gws cbms gwT cbmT tol k maxIter picked
        (calcError gws cbms gwT cbmT picked) 0

/-- `robust_greedy_local(values_gw, values_cbm, k, gw_tgt, cbm_tgt, tol,
max_iter)`. -/
def robust_greedy_local (gws cbms : List ℚ) (k : ℕ) (gwT cbmT tol : ℚ)
    (maxIter : ℕ) : MatchOut :=
  (robustRun gws cbms k gwT cbmT tol maxIter).1

/-- The result of `find_subset_match`, with its method tag. -/
structure FindOut where
  found : Bool
  picked : List ℕ
  sum_gw : Option ℚ
  sum_cbm : Option ℚ
  method : String
deriving Repr, DecidableEq

/-- `find_subset_match(pkgs_df, k, gw_tgt, cbm_tgt, tol)`: guard
`N < k or k <= 0`, exact enumeration when `N ≤ MAX_EXACT_N`, else the
robust greedy-local search with `max_iter = 300`. -/
def find_subset_match (gws cbms : List ℚ) (k : ℕ) (gwT cbmT tol : ℚ) :
    FindOut :=
  let n := gws.length
  if n < k ∨ k = 0 then ⟨false, [], none, none, "invalid"⟩
  else if n ≤ MAX_EXACT_N then
    let r := exact_subset_match gws cbms k gwT cbmT tol
    ⟨r.found, r.picked, r.sum_gw, r.sum_cbm, "exact"⟩
  else
    let r := robust_greedy_local gws cbms k gwT cbmT tol 300
    ⟨r.found, r.picked, r.sum_gw, r.sum_cbm, "robust-greedy-local"⟩

/-! ## Helper lemmas for the expansion function -/

theorem addIfNew_head? (acc : List (List Char)) (x : List Char)
    (h : acc ≠ []) : (addIfNew acc x).head? = acc.head? := by
  unfold addIfNew
  split
  · rfl
  · cases acc with
    | nil => exact absurd rfl h
    | cons a t => rfl

theorem addIfNew_ne_nil (acc : List (List Char)) (x : List Char)
    (h : acc ≠ []) : addIfNew acc x ≠ [] := by
  unfold addIfNew
  split
  · exact h
  · cases acc <;> simp

theorem tokenStep_head? (pfx : List Char) (nf : Bool) (sub : List Char)
    (acc : List (List Char)) (t : List Char) (h : acc ≠ []) :
    (tokenStep pfx nf sub acc t).head? = acc.head? := by
  unfold tokenStep
  dsimp only
  split_ifs <;> exact addIfNew_head? _ _ h

theorem tokenStep_ne_nil (pfx : List Char) (nf : Bool) (sub : List Char)
    (acc : List (List Char)) (t : List Char) (h : acc ≠ []) :
    tokenStep pfx nf sub acc t ≠ [] := by
  unfold tokenStep
  dsimp only
  split_ifs <;> exact addIfNew_ne_nil _ _ h

theorem foldl_tokenStep_head? (pfx : List Char) (nf : Bool)
    (sub : List Char) :
    ∀ (ts : List (List Char)) (acc : List (List Char)), acc ≠ [] →
      (ts.foldl (tokenStep pfx nf sub) acc).head? = acc.head?
  | [], acc, _ => rfl
  | t :: ts, acc, h => by
    rw [List.foldl_cons,
      foldl_tokenStep_head? pfx nf sub ts _ (tokenStep_ne_nil _ _ _ _ _ h),
      tokenStep_head? _ _ _ _ _ h]

/-- C4: evaluation of `expand_combined_codes` at the claim's two inputs.
The first example expands as claimed, but for a base that itself ends in
a numeric-with-suffix block the greedy `(.*-)` group absorbs the base's
numeric segment, so `"X-0325-1,0325-2"` expands to
`{"X-0325-1", "X-0325-0325-2"}` and does not contain `"X-0325-2"` —
contradicting the source's own documented example
(`"HVDC-ADOPT-HE-0325-1, 0325-2" → {…-0325-1, …-0325-2}`). -/
theorem expand_combined_codes_0325_bug :
    expand_combined_codes "X-0087,90" = ["X-0087", "X-0090"] ∧
    expand_combined_codes "X-0325-1,0325-2" =
      ["X-0325-1", "X-0325-0325-2"] ∧
    "X-0325-2" ∉ expand_combined_codes "X-0325-1,0325-2" ∧
    expand_combined_codes "HVDC-ADOPT-HE-0325-1, 0325-2" =
      ["HVDC-ADOPT-HE-0325-1", "HVDC-ADOPT-HE-0325-0325-2"] ∧
    "HVDC-ADOPT-HE-0325-2" ∉
      expand_combined_codes "HVDC-ADOPT-HE-0325-1, 0325-2" := by
  refine ⟨by decide, by decide, by decide, by decide, by decide⟩

/-- C9 counterexample: for the numeric-segment-free base `"ABC"`, the
expansion of `"ABC,90"` is not the base token only — the bare token
`"90"` is added verbatim. -/
theorem expand_malformed_not_base_only :
    "90" ∈ expand_combined_codes "ABC,90" ∧ ("90" : String) ≠ "ABC" ∧
    expand_combined_codes "ABC,90" ≠ ["ABC"] := by
  refine ⟨by decide, by decide, by decide⟩

/-- C9 (amended): on malformed input the function still never raises
(it is a total function) and the returned set always contains the base
token (it is the first added element); but tokens after a base with no
recognizable numeric segment are passed through (bare numeric tokens
verbatim), not dropped: `expand("ABC,90") = {"ABC", "90"}`. -/
theorem expand_malformed_keeps_base :
    (∀ code : String, ',' ∈ code.toList →
      (expand_combined_codes code).head? =
        some (String.mk
          ((splitChar ',' (code.toList.filter (fun c => c ≠ ' '))).headD []))) ∧
    expand_combined_codes "ABC,90" = ["ABC", "90"] := by
  constructor
  · intro code hc
    unfold expand_combined_codes
    rw [if_neg (not_not_intro hc)]
    rcases hp : parseBase ((splitChar ','
        (code.toList.filter (fun c => c ≠ ' '))).headD []) with ⟨pfx, num?, sub⟩
    simp only [hp]
    rw [List.head?_map, foldl_tokenStep_head? _ _ _ _ _ (by simp)]
    rfl
  · decide

/-- C9 witness: the general head-of-result statement applied at the
concrete malformed input `"ABC,90"`. -/
theorem expand_malformed_keeps_base_witness :
    ',' ∈ ("ABC,90" : String).toList ∧
      (expand_combined_codes "ABC,90").head? =
        some (String.mk ((splitChar ','
          (("ABC,90" : String).toList.filter (fun c => c ≠ ' '))).headD [])) :=
  ⟨by decide, expand_malformed_keeps_base.1 "ABC,90" (by decide)⟩

/-- C6: `get_billing_mode` always returns one of the four mode strings;
the three mode sets are pairwise disjoint; the contract-rate table gives
every rate-mode warehouse a non-zero rate and every passthrough and
no-charge warehouse a zero rate. -/
theorem billing_mode_exclusive :
    (∀ w : String,
      get_billing_mode w ∈ ["rate", "passthrough", "no-charge", "unknown"]) ∧
    (∀ w : String, w ∈ BILLING_MODE_RATE → w ∉ BILLING_MODE_PASSTHROUGH) ∧
    (∀ w : String, w ∈ BILLING_MODE_RATE → w ∉ BILLING_MODE_NO_CHARGE) ∧
    (∀ w : String,
      w ∈ BILLING_MODE_PASSTHROUGH → w ∉ BILLING_MODE_NO_CHARGE) ∧
    (∀ w : String, w ∈ BILLING_MODE_RATE → get_warehouse_rate w ≠ 0) ∧
    (∀ w : String, w ∈ BILLING_MODE_PASSTHROUGH → get_warehouse_rate w = 0) ∧
    (∀ w : String, w ∈ BILLING_MODE_NO_CHARGE → get_warehouse_rate w = 0) := by
  refine ⟨?_, ?_, ?_, ?_, ?_, ?_, ?_⟩
  · intro w
    unfold get_billing_mode
    dsimp only
    split_ifs <;> simp
  all_goals
    intro w h
    simp only [BILLING_MODE_RATE, BILLING_MODE_PASSTHROUGH,
      BILLING_MODE_NO_CHARGE, List.mem_cons, List.mem_singleton,
      List.not_mem_nil, or_false] at h
    rcases h with rfl | rfl | rfl | rfl <;> decide

/-- C6 witness: the membership-conditioned parts applied at concrete
warehouses. -/
theorem billing_mode_exclusive_witness :
    ("DSV Outdoor" : String) ∈ BILLING_MODE_RATE ∧
      get_warehouse_rate "DSV Outdoor" ≠ 0 ∧
      ("MOSB" : String) ∈ BILLING_MODE_NO_CHARGE ∧
      get_warehouse_rate "MOSB" = 0 ∧
      ("DSV Outdoor" : String) ∉ BILLING_MODE_PASSTHROUGH :=
  ⟨by decide, billing_mode_exclusive.2.2.2.2.1 "DSV Outdoor" (by decide),
    by decide, billing_mode_exclusive.2.2.2.2.2.2 "MOSB" (by decide),
    billing_mode_exclusive.2.1 "DSV Outdoor" (by decide)⟩

theorem abs_deltaPct_of_pos {inv sys : ℚ} (h : 0 < inv) :
    |deltaPct inv sys| = |inv - sys| / inv := by
  rw [deltaPct, if_neg (ne_of_gt h), abs_div, abs_of_pos h]

/-- C7: the rate-mode verdict is PASS iff the relative delta
`|invoice − system| / invoice` is at most the 2% threshold (invoice `0`
is treated as `0%` relative error and passes); the exception grade is
WARN exactly between 2% and 5% and FAIL beyond 5%; the no-charge verdict
is PASS iff the invoice amount is exactly `0`; and in rate mode the
system amount is recomputed as average occupied area × contract rate
(`round`ed to 2 decimals), e.g. `120.5 × 47.0 = 5663.50`, which against
an invoice of `5600.00` passes the 2% rule. -/
theorem billing_rate_nocharge_verdicts :
    ∀ (sys inv : ℚ),
      (0 < inv →
        ((statusOf "rate" inv sys (deltaPct inv sys) (1/50) = "PASS") ↔
          |inv - sys| / inv ≤ 1/50)) ∧
      (0 < inv →
        ((gradeOf "rate" (deltaPct inv sys) (1/50)
            (statusOf "rate" inv sys (deltaPct inv sys) (1/50)) = "WARN") ↔
          (1/50 < |inv - sys| / inv ∧ |inv - sys| / inv ≤ 1/20))) ∧
      (0 < inv →
        ((gradeOf "rate" (deltaPct inv sys) (1/50)
            (statusOf "rate" inv sys (deltaPct inv sys) (1/50)) = "FAIL") ↔
          1/20 < |inv - sys| / inv)) ∧
      (deltaPct 0 sys = 0 ∧
        statusOf "rate" 0 sys (deltaPct 0 sys) (1/50) = "PASS") ∧
      ((statusOf "no-charge" inv sys (deltaPct inv sys) (1/50) = "PASS") ↔
        inv = 0) ∧
      (∀ avg rate : ℚ,
        recalcAmount "rate" avg rate sys = round2 (avg * rate)) ∧
      (recalcAmount "rate" (241/2) 47 0 = 11327/2 ∧
        statusOf "rate" 5600 (11327/2) (deltaPct 5600 (11327/2)) (1/50) =
          "PASS") := by
  intro sys inv
  have hst : ∀ a b d thr : ℚ, statusOf "rate" a b d thr =
      if |d| ≤ thr then "PASS" else "FAIL" := by
    intro a b d thr; simp [statusOf]
  have hgr : ∀ d s, gradeOf "rate" d (1/50) s =
      if |d| ≤ 1/50 then "PASS"
      else if |d| ≤ 1/20 then "WARN" else "FAIL" := by
    intro d s; simp [gradeOf]
  refine ⟨?_, ?_, ?_, ⟨?_, ?_⟩, ?_, ?_, ?_, ?_⟩
  · intro h
    rw [hst, ← abs_deltaPct_of_pos h]
    split_ifs with hle
    · exact iff_of_true rfl hle
    · exact iff_of_false (by decide) hle
  · intro h
    rw [hgr, abs_deltaPct_of_pos h]
    split_ifs with h1 h2
    · refine iff_of_false (by decide) ?_
      rintro ⟨hgt, -⟩; linarith
    · exact iff_of_true rfl ⟨not_le.mp h1, h2⟩
    · refine iff_of_false (by decide) ?_
      rintro ⟨-, hle⟩; exact h2 hle
  · intro h
    rw [hgr, abs_deltaPct_of_pos h]
    split_ifs with h1 h2
    · refine iff_of_false (by decide) ?_
      intro hgt; linarith
    · refine iff_of_false (by decide) ?_
      intro hgt; linarith
    · exact iff_of_true rfl (not_le.mp h2)
  · simp [deltaPct]
  · rw [hst, if_pos (by norm_num [deltaPct])]
  · rw [show statusOf "no-charge" inv sys (deltaPct inv sys) (1/50) =
        if inv = 0 then "PASS" else "FAIL" by simp [statusOf]]
    split_ifs with h
    · exact iff_of_true rfl h
    · exact iff_of_false (by decide) h
  · intro avg rate; simp [recalcAmount]
  · show recalcAmount "rate" (241/2) 47 0 = 11327/2
    have hfl : ⌊(566350 : ℚ)⌋ = 566350 := by norm_num
    simp only [recalcAmount, round2, roundHalfEven]
    norm_num [hfl]
  · rw [hst, if_pos ?_]
    rw [show deltaPct 5600 (11327/2) = (5600 - 11327/2)/5600 by
      rw [deltaPct, if_neg (by norm_num)]]
    rw [abs_le]
    constructor <;> norm_num

/-- C7 witness: the rate-mode PASS rule applied at the spec's concrete
scenario `invoice = 5600`, `system = 5663.5`. -/
theorem billing_rate_nocharge_verdicts_witness :
    (0 : ℚ) < 5600 ∧
      ((statusOf "rate" 5600 (11327/2) (deltaPct 5600 (11327/2)) (1/50) =
        "PASS") ↔ |(5600 : ℚ) - 11327/2| / 5600 ≤ 1/50) :=
  ⟨by norm_num,
    (billing_rate_nocharge_verdicts (11327/2) 5600).1 (by norm_num)⟩

/-- C8: with the passthrough system amount sourced verbatim from the
invoice (spec-modelled injection, `passthroughSystemAmount`), the
recomputed amount equals the invoice amount, the verdict is PASS iff
`|invoice − system| < 0.5` AED, and consequently an uncorrupted
passthrough row always passes. -/
theorem billing_passthrough_verbatim :
    ∀ (inv avg rate : ℚ),
      recalcAmount "passthrough" avg rate (passthroughSystemAmount inv) =
        inv ∧
      (∀ sys : ℚ,
        (statusOf "passthrough" inv sys (deltaPct inv sys) (1/50) =
          "PASS") ↔ |inv - sys| < 1/2) ∧
      statusOf "passthrough" inv
        (recalcAmount "passthrough" avg rate (passthroughSystemAmount inv))
        (deltaPct inv
          (recalcAmount "passthrough" avg rate (passthroughSystemAmount inv)))
        (1/50) = "PASS" := by
  intro inv avg rate
  have hre : recalcAmount "passthrough" avg rate
      (passthroughSystemAmount inv) = inv := by
    simp [recalcAmount, passthroughSystemAmount]
  have hsp : ∀ sys : ℚ,
      statusOf "passthrough" inv sys (deltaPct inv sys) (1/50) =
        if |inv - sys| < 1/2 then "PASS" else "FAIL" := by
    intro sys; simp [statusOf]
  refine ⟨hre, ?_, ?_⟩
  · intro sys
    rw [hsp]
    split_ifs with h
    · exact iff_of_true rfl h
    · exact iff_of_false (by decide) h
  · rw [hre, hsp, if_pos (by norm_num)]

/-! ## Explosion conservation (C5) -/

theorem explodeRecord_origIdx {idx : ℕ} {r : ShipRec} :
    ∀ u ∈ explodeRecord idx r, u.origIdx = idx := by
  intro u hu
  unfold explodeRecord at hu
  split at hu
  · simp at hu
  · simp only [List.mem_map, List.mem_range] at hu
    obtain ⟨x, -, rfl⟩ := hu
    rfl

theorem explode_enumFrom_lb :
    ∀ (recs : List ShipRec) (t : ℕ) (u : PkgUnit),
      u ∈ (((List.enumFrom t recs).map
        (fun pr => explodeRecord pr.1 pr.2)).flatten) → t ≤ u.origIdx := by
  intro recs
  induction recs with
  | nil => intro t u hu; simp [List.enumFrom] at hu
  | cons a l ih =>
    intro t u hu
    rw [List.enumFrom_cons, List.map_cons, List.flatten_cons,
      List.mem_append] at hu
    rcases hu with hu | hu
    · exact le_of_eq (explodeRecord_origIdx u hu).symm
    · exact le_trans (Nat.le_succ t) (ih (t + 1) u hu)

theorem explode_enumFrom_filter :
    ∀ (recs : List ShipRec) (s i : ℕ) (r : ShipRec), recs[i]? = some r →
      ((((List.enumFrom s recs).map
          (fun pr => explodeRecord pr.1 pr.2)).flatten).filter
            (fun u => u.origIdx = s + i)) = explodeRecord (s + i) r := by
  intro recs
  induction recs with
  | nil => intro s i r h; simp at h
  | cons a l ih =>
    intro s i r h
    rw [List.enumFrom_cons, List.map_cons, List.flatten_cons,
      List.filter_append]
    cases i with
    | zero =>
      rw [List.getElem?_cons_zero, Option.some_inj] at h
      subst h
      rw [Nat.add_zero]
      have h1 : (explodeRecord s a).filter (fun u => u.origIdx = s) =
          explodeRecord s a := by
        rw [List.filter_eq_self]
        intro u hu
        simpa using explodeRecord_origIdx u hu
      have h2 : ((((List.enumFrom (s + 1) l).map
          (fun pr => explodeRecord pr.1 pr.2)).flatten).filter
            (fun u => u.origIdx = s)) = [] := by
        rw [List.filter_eq_nil_iff]
        intro u hu
        have := explode_enumFrom_lb l (s + 1) u hu
        simp only [decide_eq_true_eq]
        omega
      rw [h1, h2, List.append_nil]
    | succ i =>
      rw [List.getElem?_cons_succ] at h
      have h1 : (explodeRecord s a).filter
          (fun u => u.origIdx = s + (i + 1)) = [] := by
        rw [List.filter_eq_nil_iff]
        intro u hu
        have := explodeRecord_origIdx u hu
        simp only [decide_eq_true_eq]
        omega
      have h2 := ih (s + 1) i r h
      rw [h1, List.nil_append,
        show s + (i + 1) = (s + 1) + i from by omega, h2]

theorem natCast_toNat_ne_zero {z : ℤ} (h : 0 < z) : (z.toNat : ℚ) ≠ 0 := by
  have hz : z.toNat ≠ 0 := by omega
  exact_mod_cast hz

/-- C5: within `explode_by_pkg`, the record at index `idx` contributes
no units when its package count is `≤ 0`, and exactly `pkg` units whose
weights and volumes re-sum to the record's original totals (exactly, in
rational arithmetic) when `pkg > 0`. -/
theorem explode_by_pkg_conserves :
    ∀ (recs : List ShipRec) (idx : ℕ) (r : ShipRec), recs[idx]? = some r →
      ((explode_by_pkg recs).filter (fun u => u.origIdx = idx) =
        explodeRecord idx r) ∧
      (r.pkg ≤ 0 →
        (explode_by_pkg recs).filter (fun u => u.origIdx = idx) = []) ∧
      (0 < r.pkg →
        ((explode_by_pkg recs).filter (fun u => u.origIdx = idx)).length =
          r.pkg.toNat ∧
        (((explode_by_pkg recs).filter
            (fun u => u.origIdx = idx)).map PkgUnit.gw).sum = r.gw ∧
        (((explode_by_pkg recs).filter
            (fun u => u.origIdx = idx)).map PkgUnit.cbm).sum = r.cbm) := by
  intro recs idx r h
  have hkey : (explode_by_pkg recs).filter (fun u => u.origIdx = idx) =
      explodeRecord idx r := by
    have := explode_enumFrom_filter recs 0 idx r h
    simpa [explode_by_pkg, List.enum] using this
  refine ⟨hkey, ?_, ?_⟩
  · intro hle
    rw [hkey, explodeRecord, if_pos hle]
  · intro hpos
    have hne : ¬ r.pkg ≤ 0 := not_le.mpr hpos
    have hq : (r.pkg.toNat : ℚ) ≠ 0 := natCast_toNat_ne_zero hpos
    rw [hkey, explodeRecord, if_neg hne]
    refine ⟨by simp, ?_, ?_⟩
    · rw [List.map_map]
      have : ((fun u => PkgUnit.gw u) ∘ fun u =>
          (⟨idx, u + 1, 1, r.gw / (r.pkg.toNat : ℚ),
            r.cbm / (r.pkg.toNat : ℚ)⟩ : PkgUnit)) =
          fun _ => r.gw / (r.pkg.toNat : ℚ) := rfl
      rw [this, List.map_const', List.length_range, List.sum_replicate,
        nsmul_eq_mul, mul_div_cancel₀ _ hq]
    · rw [List.map_map]
      have : ((fun u => PkgUnit.cbm u) ∘ fun u =>
          (⟨idx, u + 1, 1, r.gw / (r.pkg.toNat : ℚ),
            r.cbm / (r.pkg.toNat : ℚ)⟩ : PkgUnit)) =
          fun _ => r.cbm / (r.pkg.toNat : ℚ) := rfl
      rw [this, List.map_const', List.length_range, List.sum_replicate,
        nsmul_eq_mul, mul_div_cancel₀ _ hq]

/-- C5 witness: a record with 3 packages, weight 5 and volume 7: its
three units carry `5/3` and `7/3` each and re-sum to the totals. -/
theorem explode_by_pkg_conserves_witness :
    (([(⟨3, 5, 7⟩ : ShipRec)])[0]? = some (⟨3, 5, 7⟩ : ShipRec)) ∧
    (0 : ℤ) < 3 ∧
    (((explode_by_pkg [(⟨3, 5, 7⟩ : ShipRec)]).filter
        (fun u => u.origIdx = 0)).map PkgUnit.gw).sum = 5 ∧
    (((explode_by_pkg [(⟨3, 5, 7⟩ : ShipRec)]).filter
        (fun u => u.origIdx = 0)).map PkgUnit.cbm).sum = 7 :=
  ⟨rfl, by decide,
    ((explode_by_pkg_conserves [⟨3, 5, 7⟩] 0 ⟨3, 5, 7⟩ rfl).2.2
      (by decide)).2.1,
    ((explode_by_pkg_conserves [⟨3, 5, 7⟩] 0 ⟨3, 5, 7⟩ rfl).2.2
      (by decide)).2.2⟩

/-! ## Exact matcher completeness and first-fit order (C1) -/

theorem mem_comb : ∀ (k : ℕ) (xs l : List α),
    l ∈ comb k xs ↔ (l.Sublist xs ∧ l.length = k) := by
  intro k xs
  induction xs generalizing k with
  | nil =>
    intro l
    cases k with
    | zero =>
      simp only [comb, List.mem_singleton, List.sublist_nil]
      constructor
      · rintro rfl; exact ⟨rfl, rfl⟩
      · rintro ⟨rfl, -⟩; rfl
    | succ k =>
      simp only [comb, List.not_mem_nil, false_iff, not_and, List.sublist_nil]
      rintro rfl
      simp
  | cons x xs ih =>
    intro l
    cases k with
    | zero =>
      simp only [comb, List.mem_singleton]
      constructor
      · rintro rfl; exact ⟨List.nil_sublist _, rfl⟩
      · rintro ⟨-, hl⟩; exact List.length_eq_zero.mp hl
    | succ k =>
      simp only [comb, List.mem_append, List.mem_map, ih]
      constructor
      · rintro (⟨t, ⟨hs, hl⟩, rfl⟩ | ⟨hs, hl⟩)
        · exact ⟨List.Sublist.cons₂ x hs, by simp [hl]⟩
        · exact ⟨List.Sublist.cons x hs, hl⟩
      · rintro ⟨hs, hl⟩
        cases hs with
        | cons _ h => exact Or.inr ⟨h, hl⟩
        | cons₂ _ h => exact Or.inl ⟨_, ⟨h, by simpa using hl⟩, rfl⟩

theorem find?_first (p : α → Bool) :
    ∀ (l : List α) (x : α), x ∈ l → p x = true →
      ∃ c pre suf, l.find? p = some c ∧ p c = true ∧
        l = pre ++ c :: suf ∧ ∀ d ∈ pre, p d = false := by
  intro l
  induction l with
  | nil => intro x hx; simp at hx
  | cons h t ih =>
    intro x hx hp
    by_cases hph : p h = true
    · exact ⟨h, [], t, List.find?_cons_of_pos _ hph, hph, rfl, by simp⟩
    · have hphf : p h = false := by simpa using hph
      have hxt : x ∈ t := by
        rcases List.mem_cons.mp hx with rfl | hxt
        · rw [hp] at hphf; cases hphf
        · exact hxt
      obtain ⟨c, pre, suf, hf, hpc, heq, hpre⟩ := ih x hxt hp
      refine ⟨c, h :: pre, suf, ?_, hpc, by rw [heq]; rfl, ?_⟩
      · rw [List.find?_cons_of_neg _ hph, hf]
      · intro d hd
        rcases List.mem_cons.mp hd with rfl | hd
        · exact hphf
        · exact hpre d hd

/-- C1: if some `k`-subset of the pool positions has weight and volume
sums within tolerance of the targets, then `exact_subset_match` (and,
for `n ≤ 18` with a valid `k`, `find_subset_match` via its `exact`
path) returns `found = True` with a within-tolerance `k`-subset, namely
the first feasible one in the fixed combination-enumeration order. -/
theorem exact_match_first_fit :
    ∀ (gws cbms : List ℚ) (k : ℕ) (gwT cbmT tol : ℚ) (c₀ : List ℕ),
      gws.length ≤ MAX_EXACT_N → 0 < k →
      c₀.Sublist (List.range gws.length) → c₀.length = k →
      close2 (sumAt gws c₀) gwT tol → close2 (sumAt cbms c₀) cbmT tol →
      ∃ c : List ℕ,
        exact_subset_match gws cbms k gwT cbmT tol =
          ⟨true, c, some (sumAt gws c), some (sumAt cbms c)⟩ ∧
        find_subset_match gws cbms k gwT cbmT tol =
          ⟨true, c, some (sumAt gws c), some (sumAt cbms c), "exact"⟩ ∧
        close2 (sumAt gws c) gwT tol ∧ close2 (sumAt cbms c) cbmT tol ∧
        c.Sublist (List.range gws.length) ∧ c.length = k ∧
        ∃ pre suf,
          comb k (List.range gws.length) = pre ++ c :: suf ∧
          ∀ d ∈ pre,
            ¬(close2 (sumAt gws d) gwT tol ∧
              close2 (sumAt cbms d) cbmT tol) := by
  intro gws cbms k gwT cbmT tol c₀ hn hk hsub hlen hev hec
  have hmem : c₀ ∈ comb k (List.range gws.length) :=
    (mem_comb k _ c₀).mpr ⟨hsub, hlen⟩
  have hp : (fun c => decide (close2 (sumAt gws c) gwT tol) &&
      decide (close2 (sumAt cbms c) cbmT tol)) c₀ = true := by
    simp only [Bool.and_eq_true, decide_eq_true_eq]
    exact ⟨hev, hec⟩
  obtain ⟨c, pre, suf, hf, hpc, heq, hpre⟩ :=
    find?_first (fun c => decide (close2 (sumAt gws c) gwT tol) &&
      decide (close2 (sumAt cbms c) cbmT tol))
      (comb k (List.range gws.length)) c₀ hmem hp
  have hcmem : c ∈ comb k (List.range gws.length) := by
    rw [heq]; simp
  obtain ⟨hcs, hcl⟩ := (mem_comb k _ c).mp hcmem
  have hclose : close2 (sumAt gws c) gwT tol ∧
      close2 (sumAt cbms c) cbmT tol := by
    simpa only [Bool.and_eq_true, decide_eq_true_eq] using hpc
  have hex : exact_subset_match gws cbms k gwT cbmT tol =
      ⟨true, c, some (sumAt gws c), some (sumAt cbms c)⟩ := by
    unfold exact_subset_match
    rw [hf]
  have hkn : k ≤ gws.length := by
    have := hsub.length_le
    simpa [hlen] using this
  have hfind : find_subset_match gws cbms k gwT cbmT tol =
      ⟨true, c, some (sumAt gws c), some (sumAt cbms c), "exact"⟩ := by
    unfold find_subset_match
    rw [if_neg (by push_neg; omega), if_pos hn, hex]
  refine ⟨c, hex, hfind, hclose.1, hclose.2, hcs, hcl, pre, suf, heq, ?_⟩
  intro d hd hcon
  have htr : (decide (close2 (sumAt gws d) gwT tol) &&
      decide (close2 (sumAt cbms d) cbmT tol)) = true := by
    simp only [Bool.and_eq_true, decide_eq_true_eq]
    exact hcon
  rw [hpre d hd] at htr
  exact Bool.false_ne_true htr

/-! ## Local-search pass analysis (C2, C3, C10) -/

theorem nodup_set : ∀ (l : List ℕ) (i : ℕ) (x : ℕ),
    l.Nodup → x ∉ l → (l.set i x).Nodup := by
  intro l
  induction l with
  | nil => intro i x _ _; simp
  | cons a t ih =>
    intro i x hnd hx
    cases i with
    | zero =>
      rw [List.set_cons_zero]
      exact List.Nodup.cons (fun hxt => hx (List.mem_cons_of_mem a hxt))
        hnd.of_cons
    | succ i =>
      rw [List.set_cons_succ]
      refine List.Nodup.cons ?_ (ih i x hnd.of_cons
        (fun hxt => hx (List.mem_cons_of_mem a hxt)))
      intro hmem
      rcases List.mem_or_eq_of_mem_set hmem with hat | rfl
      · exact (List.nodup_cons.mp hnd).1 hat
      · exact hx (List.mem_cons_self a t)

theorem scanGo_inv (gws cbms : List ℚ) (gwT cbmT : ℚ) (cur : List ℕ)
    (i : ℕ) :
    ∀ (js : List ℕ) (b : Option ℕ) (e : ℚ),
      (∀ x, b = some x →
        x ∉ cur ∧ e = calcError gws cbms gwT cbmT (cur.set i x)) →
      ∀ (r : ℕ) (e' : ℚ),
        scanGo gws cbms gwT cbmT cur i js b e = (some r, e') →
        r ∉ cur ∧ e' = calcError gws cbms gwT cbmT (cur.set i r) := by
  intro js
  induction js with
  | nil =>
    intro b e hb r e' h
    simp only [scanGo] at h
    obtain ⟨rfl, rfl⟩ : b = some r ∧ e = e' := by
      exact ⟨congrArg Prod.fst h, congrArg Prod.snd h⟩
    exact ⟨(hb r rfl).1, (hb r rfl).2⟩
  | cons j rest ih =>
    intro b e hb r e' h
    simp only [scanGo] at h
    by_cases hj : j ∈ cur
    · rw [if_pos hj] at h
      exact ih b e hb r e' h
    · rw [if_neg hj] at h
      by_cases hlt : calcError gws cbms gwT cbmT (cur.set i j) < e
      · rw [if_pos hlt] at h
        by_cases h0 : calcError gws cbms gwT cbmT (cur.set i j) = 0
        · rw [if_pos h0] at h
          obtain ⟨h1, h2⟩ : some j = some r ∧
              calcError gws cbms gwT cbmT (cur.set i j) = e' :=
            ⟨congrArg Prod.fst h, congrArg Prod.snd h⟩
          obtain rfl : j = r := by injection h1
          exact ⟨hj, h2.symm⟩
        · rw [if_neg h0] at h
          refine ih (some j) _ ?_ r e' h
          rintro x hx
          obtain rfl : j = x := by injection hx
          exact ⟨hj, rfl⟩
      · rw [if_neg hlt] at h
        exact ih b e hb r e' h

theorem slotStep_err (gws cbms : List ℚ) (gwT cbmT tol : ℚ)
    (st st' : PassState) (i : ℕ)
    (h : slotStep gws cbms gwT cbmT tol st i = .inr st') :
    st' = st ∨
      (st'.improved = true ∧ st'.bestErr < st.bestErr ∧
        (∃ r, r ∉ st.cur ∧ st'.cur = st.cur.set i r) ∧
        st'.bestErr = calcError gws cbms gwT cbmT st'.cur ∧
        ¬(close2 (sumAt gws st'.cur) gwT tol ∧
          close2 (sumAt cbms st'.cur) cbmT tol)) := by
  unfold slotStep at h
  rcases hsg : scanGo gws cbms gwT cbmT st.cur i (List.range gws.length)
      none st.bestErr with ⟨b, e⟩
  rw [hsg] at h
  cases b with
  | none => exact Or.inl (Sum.inr.inj h).symm
  | some r =>
    have hin := scanGo_inv gws cbms gwT cbmT st.cur i
      (List.range gws.length) none st.bestErr (by rintro x ⟨⟩) r e hsg
    dsimp only at h
    by_cases hlt : e < st.bestErr
    · rw [if_pos hlt] at h
      by_cases hcl : close2 (sumAt gws (st.cur.set i r)) gwT tol ∧
          close2 (sumAt cbms (st.cur.set i r)) cbmT tol
      · rw [if_pos hcl] at h
        cases h
      · rw [if_neg hcl] at h
        right
        obtain rfl : st' = ⟨st.cur.set i r, e, true⟩ := (Sum.inr.inj h).symm
        exact ⟨rfl, hlt, ⟨r, hin.1, rfl⟩, hin.2, hcl⟩
    · rw [if_neg hlt] at h
      exact Or.inl (Sum.inr.inj h).symm

theorem slotStep_inl (gws cbms : List ℚ) (gwT cbmT tol : ℚ)
    (st : PassState) (m : MatchOut) (i : ℕ)
    (h : slotStep gws cbms gwT cbmT tol st i = .inl m) :
    m.found = true ∧ (∃ r, r ∉ st.cur ∧ m.picked = st.cur.set i r) ∧
      m.sum_gw = some (sumAt gws m.picked) ∧
      m.sum_cbm = some (sumAt cbms m.picked) ∧
      close2 (sumAt gws m.picked) gwT tol ∧
      close2 (sumAt cbms m.picked) cbmT tol := by
  unfold slotStep at h
  rcases hsg : scanGo gws cbms gwT cbmT st.cur i (List.range gws.length)
      none st.bestErr with ⟨b, e⟩
  rw [hsg] at h
  cases b with
  | none => cases h
  | some r =>
    have hin := scanGo_inv gws cbms gwT cbmT st.cur i
      (List.range gws.length) none st.bestErr (by rintro x ⟨⟩) r e hsg
    dsimp only at h
    by_cases hlt : e < st.bestErr
    · rw [if_pos hlt] at h
      by_cases hcl : close2 (sumAt gws (st.cur.set i r)) gwT tol ∧
          close2 (sumAt cbms (st.cur.set i r)) cbmT tol
      · rw [if_pos hcl] at h
        obtain rfl : m = ⟨true, st.cur.set i r,
            some (sumAt gws (st.cur.set i r)),
            some (sumAt cbms (st.cur.set i r))⟩ := (Sum.inl.inj h).symm
        exact ⟨rfl, ⟨r, hin.1, rfl⟩, rfl, rfl, hcl.1, hcl.2⟩
      · rw [if_neg hcl] at h
        cases h
    · rw [if_neg hlt] at h
      cases h

theorem passGo_err (gws cbms : List ℚ) (gwT cbmT tol : ℚ) :
    ∀ (js : List ℕ) (st : PassState),
      (∀ st', passGo gws cbms gwT cbmT tol js st = .inr st' →
        st'.bestErr ≤ st.bestErr ∧
        (st' = st ∨
          (st'.improved = true ∧ st'.bestErr < st.bestErr ∧
            st'.bestErr = calcError gws cbms gwT cbmT st'.cur ∧
            ¬(close2 (sumAt gws st'.cur) gwT tol ∧
              close2 (sumAt cbms st'.cur) cbmT tol)))) ∧
      (∀ m, passGo gws cbms gwT cbmT tol js st = .inl m →
        m.found = true ∧ m.sum_gw = some (sumAt gws m.picked) ∧
        m.sum_cbm = some (sumAt cbms m.picked) ∧
        close2 (sumAt gws m.picked) gwT tol ∧
        close2 (sumAt cbms m.picked) cbmT tol) := by
  intro js
  induction js with
  | nil =>
    intro st
    constructor
    · intro st' h
      obtain rfl : st' = st := (Sum.inr.inj h).symm
      exact ⟨le_refl _, Or.inl rfl⟩
    · intro m h
      cases h
  | cons i js ih =>
    intro st
    constructor
    · intro st' h
      simp only [passGo] at h
      rcases hs : slotStep gws cbms gwT cbmT tol st i with m | st₁
      · rw [hs] at h; cases h
      · rw [hs] at h
        have hstep := slotStep_err gws cbms gwT cbmT tol st st₁ i hs
        have hrec := (ih st₁).1 st' h
        rcases hstep with rfl | ⟨himp₁, hlt₁, -, herr₁, hcl₁⟩
        · exact hrec
        · refine ⟨le_trans hrec.1 (le_of_lt hlt₁), ?_⟩
          rcases hrec.2 with rfl | ⟨himp', hlt', herr', hcl'⟩
          · exact Or.inr ⟨himp₁, hlt₁, herr₁, hcl₁⟩
          · exact Or.inr ⟨himp', lt_of_lt_of_le hlt' (le_of_lt hlt₁),
              herr', hcl'⟩
    · intro m h
      simp only [passGo] at h
      rcases hs : slotStep gws cbms gwT cbmT tol st i with m₁ | st₁
      · rw [hs] at h
        obtain ⟨hf, -, hswg, hscb, hc1, hc2⟩ :=
          slotStep_inl gws cbms gwT cbmT tol st m₁ i hs
        obtain rfl : m₁ = m := Sum.inl.inj h
        exact ⟨hf, hswg, hscb, hc1, hc2⟩
      · rw [hs] at h
        exact (ih st₁).2 m h

theorem passGo_wf (gws cbms : List ℚ) (gwT cbmT tol : ℚ) (k : ℕ) :
    ∀ (js : List ℕ) (st : PassState),
      st.cur.length = k → st.cur.Nodup →
      (∀ st', passGo gws cbms gwT cbmT tol js st = .inr st' →
        st'.cur.length = k ∧ st'.cur.Nodup) ∧
      (∀ m, passGo gws cbms gwT cbmT tol js st = .inl m →
        m.picked.length = k ∧ m.picked.Nodup) := by
  intro js
  induction js with
  | nil =>
    intro st hlen hnd
    constructor
    · intro st' h
      obtain rfl : st' = st := (Sum.inr.inj h).symm
      exact ⟨hlen, hnd⟩
    · intro m h
      cases h
  | cons i js ih =>
    intro st hlen hnd
    constructor
    · intro st' h
      simp only [passGo] at h
      rcases hs : slotStep gws cbms gwT cbmT tol st i with m₁ | st₁
      · rw [hs] at h; cases h
      · rw [hs] at h
        have hstep := slotStep_err gws cbms gwT cbmT tol st st₁ i hs
        have hst₁ : st₁.cur.length = k ∧ st₁.cur.Nodup := by
          rcases hstep with rfl | ⟨-, -, ⟨r, hr, hset⟩, -, -⟩
          · exact ⟨hlen, hnd⟩
          · rw [hset]
            exact ⟨by simpa using hlen, nodup_set _ _ _ hnd hr⟩
        exact (ih st₁ hst₁.1 hst₁.2).1 st' h
    · intro m h
      simp only [passGo] at h
      rcases hs : slotStep gws cbms gwT cbmT tol st i with m₁ | st₁
      · rw [hs] at h
        obtain ⟨-, ⟨r, hr, hset⟩, -, -, -, -⟩ :=
          slotStep_inl gws cbms gwT cbmT tol st m₁ i hs
        obtain rfl : m₁ = m := Sum.inl.inj h
        rw [hset]
        exact ⟨by simpa using hlen, nodup_set _ _ _ hnd hr⟩
      · rw [hs] at h
        have hstep := slotStep_err gws cbms gwT cbmT tol st st₁ i hs
        have hst₁ : st₁.cur.length = k ∧ st₁.cur.Nodup := by
          rcases hstep with rfl | ⟨-, -, ⟨r, hr, hset⟩, -, -⟩
          · exact ⟨hlen, hnd⟩
          · rw [hset]
            exact ⟨by simpa using hlen, nodup_set _ _ _ hnd hr⟩
        exact (ih st₁ hst₁.1 hst₁.2).2 m h

theorem loop_passes_le (gws cbms : List ℚ) (gwT cbmT tol : ℚ) (k : ℕ) :
    ∀ (fuel : ℕ) (best : List ℕ) (be : ℚ) (p : ℕ),
      (loop gws cbms gwT cbmT tol k fuel best be p).2 ≤ p + fuel := by
  intro fuel
  induction fuel with
  | zero => intro best be p; simp [loop]
  | succ fuel ih =>
    intro best be p
    simp only [loop]
    rcases h : onePass gws cbms gwT cbmT tol k best be with m | st
    · dsimp only; omega
    · dsimp only
      by_cases himp : st.improved = true
      · rw [if_pos himp]
        have := ih st.cur st.bestErr (p + 1)
        omega
      · rw [if_neg himp]
        dsimp only; omega

theorem loop_found (gws cbms : List ℚ) (gwT cbmT tol : ℚ) (k : ℕ) :
    ∀ (fuel : ℕ) (best : List ℕ) (be : ℚ) (p : ℕ),
      best.length = k → best.Nodup →
      (loop gws cbms gwT cbmT tol k fuel best be p).1.picked.length = k ∧
      (loop gws cbms gwT cbmT tol k fuel best be p).1.picked.Nodup ∧
      (loop gws cbms gwT cbmT tol k fuel best be p).1.sum_gw =
        some (sumAt gws
          (loop gws cbms gwT cbmT tol k fuel best be p).1.picked) ∧
      (loop gws cbms gwT cbmT tol k fuel best be p).1.sum_cbm =
        some (sumAt cbms
          (loop gws cbms gwT cbmT tol k fuel best be p).1.picked) := by
  intro fuel
  induction fuel with
  | zero =>
    intro best be p hlen hnd
    simp [loop, finalize, hlen, hnd]
  | succ fuel ih =>
    intro best be p hlen hnd
    simp only [loop]
    rcases h : onePass gws cbms gwT cbmT tol k best be with m | st
    · have h1 := (passGo_wf gws cbms gwT cbmT tol k (List.range k)
        ⟨best, be, false⟩ hlen hnd).2 m h
      have h2 := (passGo_err gws cbms gwT cbmT tol (List.range k)
        ⟨best, be, false⟩).2 m h
      exact ⟨h1.1, h1.2, h2.2.1, h2.2.2.1⟩
    · have hst : st.cur.length = k ∧ st.cur.Nodup :=
        (passGo_wf gws cbms gwT cbmT tol k (List.range k)
          ⟨best, be, false⟩ hlen hnd).1 st h
      dsimp only
      by_cases himp : st.improved = true
      · rw [if_pos himp]
        exact ih st.cur st.bestErr (p + 1) hst.1 hst.2
      · rw [if_neg himp]
        simp [finalize, hlen, hnd]

theorem exact_subset_match_found (gws cbms : List ℚ) (k : ℕ)
    (gwT cbmT tol : ℚ)
    (h : (exact_subset_match gws cbms k gwT cbmT tol).found = true) :
    (exact_subset_match gws cbms k gwT cbmT tol).picked.length = k ∧
    (exact_subset_match gws cbms k gwT cbmT tol).picked.Nodup ∧
    (exact_subset_match gws cbms k gwT cbmT tol).sum_gw =
      some (sumAt gws (exact_subset_match gws cbms k gwT cbmT tol).picked) ∧
    (exact_subset_match gws cbms k gwT cbmT tol).sum_cbm =
      some (sumAt cbms (exact_subset_match gws cbms k gwT cbmT tol).picked) := by
  unfold exact_subset_match at h ⊢
  rcases hf : (comb k (List.range gws.length)).find?
      (fun c => decide (close2 (sumAt gws c) gwT tol) &&
        decide (close2 (sumAt cbms c) cbmT tol)) with - | c
  · rw [hf] at h
    cases h
  · dsimp only at h ⊢
    have hc := (mem_comb k (List.range gws.length) c).mp
      (List.mem_of_find?_eq_some hf)
    exact ⟨hc.2, (List.nodup_range _).sublist hc.1, rfl, rfl⟩

theorem robust_found_wf (gws cbms : List ℚ) (k : ℕ) (gwT cbmT tol : ℚ)
    (mi : ℕ)
    (h : (robust_greedy_local gws cbms k gwT cbmT tol mi).found = true) :
    (robust_greedy_local gws cbms k gwT cbmT tol mi).picked.length = k ∧
    (robust_greedy_local gws cbms k gwT cbmT tol mi).picked.Nodup ∧
    (robust_greedy_local gws cbms k gwT cbmT tol mi).sum_gw =
      some (sumAt gws
        (robust_greedy_local gws cbms k gwT cbmT tol mi).picked) ∧
    (robust_greedy_local gws cbms k gwT cbmT tol mi).sum_cbm =
      some (sumAt cbms
        (robust_greedy_local gws cbms k gwT cbmT tol mi).picked) := by
  unfold robust_greedy_local robustRun at h ⊢
  by_cases hg : gws.length < k ∨ k = 0
  · rw [if_pos hg] at h
    cases h
  · rw [if_neg hg] at h ⊢
    push_neg at hg
    have hlenp : ((argsortScore (combinedScore gws cbms gwT cbmT)
        gws.length).take k).length = k := by
      rw [List.length_take, argsortScore, List.length_insertionSort,
        List.length_range]
      omega
    have hndp : ((argsortScore (combinedScore gws cbms gwT cbmT)
        gws.length).take k).Nodup := by
      refine List.Nodup.sublist (List.take_sublist _ _) ?_
      rw [argsortScore]
      exact (List.perm_insertionSort _ _).nodup_iff.mpr
        (List.nodup_range _)
    dsimp only at h ⊢
    by_cases hcl : close2 (sumAt gws ((argsortScore
        (combinedScore gws cbms gwT cbmT) gws.length).take k)) gwT tol ∧
        close2 (sumAt cbms ((argsortScore
          (combinedScore gws cbms gwT cbmT) gws.length).take k)) cbmT tol
    · rw [if_pos hcl] at h ⊢
      exact ⟨hlenp, hndp, rfl, rfl⟩
    · rw [if_neg hcl] at h ⊢
      have := loop_found gws cbms gwT cbmT tol k mi
        ((argsortScore (combinedScore gws cbms gwT cbmT)
          gws.length).take k)
        (calcError gws cbms gwT cbmT ((argsortScore
          (combinedScore gws cbms gwT cbmT) gws.length).take k)) 0
        hlenp hndp
      exact this

/-- C10: whenever `robust_greedy_local` or `find_subset_match` reports
`found = True`, the returned selection has exactly `k` pairwise-distinct
positions and the reported weight and volume sums are exactly the sums
over those picked positions. -/
theorem match_found_wellformed :
    ∀ (gws cbms : List ℚ) (k : ℕ) (gwT cbmT tol : ℚ) (mi : ℕ),
      ((robust_greedy_local gws cbms k gwT cbmT tol mi).found = true →
        (robust_greedy_local gws cbms k gwT cbmT tol mi).picked.length = k ∧
        (robust_greedy_local gws cbms k gwT cbmT tol mi).picked.Nodup ∧
        (robust_greedy_local gws cbms k gwT cbmT tol mi).sum_gw =
          some (sumAt gws
            (robust_greedy_local gws cbms k gwT cbmT tol mi).picked) ∧
        (robust_greedy_local gws cbms k gwT cbmT tol mi).sum_cbm =
          some (sumAt cbms
            (robust_greedy_local gws cbms k gwT cbmT tol mi).picked)) ∧
      ((find_subset_match gws cbms k gwT cbmT tol).found = true →
        (find_subset_match gws cbms k gwT cbmT tol).picked.length = k ∧
        (find_subset_match gws cbms k gwT cbmT tol).picked.Nodup ∧
        (find_subset_match gws cbms k gwT cbmT tol).sum_gw =
          some (sumAt gws
            (find_subset_match gws cbms k gwT cbmT tol).picked) ∧
        (find_subset_match gws cbms k gwT cbmT tol).sum_cbm =
          some (sumAt cbms
            (find_subset_match gws cbms k gwT cbmT tol).picked)) := by
  intro gws cbms k gwT cbmT tol mi
  constructor
  · exact robust_found_wf gws cbms k gwT cbmT tol mi
  · intro h
    unfold find_subset_match at h ⊢
    by_cases hg : gws.length < k ∨ k = 0
    · rw [if_pos hg] at h
      cases h
    · rw [if_neg hg] at h ⊢
      by_cases hn : gws.length ≤ MAX_EXACT_N
      · rw [if_pos hn] at h ⊢
        dsimp only at h ⊢
        exact exact_subset_match_found gws cbms k gwT cbmT tol h
      · rw [if_neg hn] at h ⊢
        dsimp only at h ⊢
        exact robust_found_wf gws cbms k gwT cbmT tol 300 h

/-- C10 witness: the `find_subset_match` half applied at a found
instance on the exact path. -/
theorem match_found_wellformed_witness :
    (find_subset_match [1, 2] [1, 2] 1 2 2 (1/10)).found = true ∧
    (find_subset_match [1, 2] [1, 2] 1 2 2 (1/10)).picked.length = 1 ∧
    (find_subset_match [1, 2] [1, 2] 1 2 2 (1/10)).picked.Nodup := by
  have hmem : [1] ∈ comb 1 (List.range ([1, 2] : List ℚ).length) := by decide
  have hp : (fun c => decide (close2 (sumAt [1, 2] c) 2 (1/10)) &&
      decide (close2 (sumAt [1, 2] c) 2 (1/10))) [1] = true := by
    simp only [Bool.and_eq_true, decide_eq_true_eq]
    constructor <;> norm_num [close2, sumAt]
  obtain ⟨c, pre, suf, hf', -, -, -⟩ :=
    find?_first (fun c => decide (close2 (sumAt [1, 2] c) 2 (1/10)) &&
      decide (close2 (sumAt [1, 2] c) 2 (1/10)))
      (comb 1 (List.range ([1, 2] : List ℚ).length)) [1] hmem hp
  have hex : (exact_subset_match [1, 2] [1, 2] 1 2 2 (1/10)).found = true := by
    unfold exact_subset_match
    rw [hf']
  have hfound : (find_subset_match [1, 2] [1, 2] 1 2 2 (1/10)).found =
      true := by
    unfold find_subset_match
    rw [if_neg (by norm_num), if_pos (by norm_num [MAX_EXACT_N])]
    exact hex
  have h := (match_found_wellformed [1, 2] [1, 2] 1 2 2 (1/10) 300).2 hfound
  exact ⟨hfound, h.1, h.2.1⟩

/-- C2: in each local-search pass, the maintained error never increases
(`st'.bestErr ≤ bestErr`), a pass that sets `improved` applied only
strictly improving swaps (strict decrease, with the error equal to the
total error of the new selection, which is still outside tolerance —
otherwise the pass would have returned); a pass with `improved = False`
leaves the state unchanged and makes the loop stop with the finalized
current best, and an in-pass within-tolerance hit stops the loop at
once with `found = True`. -/
theorem robust_pass_monotone :
    ∀ (gws cbms : List ℚ) (gwT cbmT tol : ℚ) (k : ℕ) (cur : List ℕ)
      (bestErr : ℚ),
      (∀ st', onePass gws cbms gwT cbmT tol k cur bestErr = .inr st' →
        st'.bestErr ≤ bestErr ∧
        (st'.improved = true → st'.bestErr < bestErr ∧
          st'.bestErr = calcError gws cbms gwT cbmT st'.cur ∧
          ¬(close2 (sumAt gws st'.cur) gwT tol ∧
            close2 (sumAt cbms st'.cur) cbmT tol)) ∧
        (st'.improved = false → st' = ⟨cur, bestErr, false⟩)) ∧
      (∀ m, onePass gws cbms gwT cbmT tol k cur bestErr = .inl m →
        m.found = true ∧ close2 (sumAt gws m.picked) gwT tol ∧
          close2 (sumAt cbms m.picked) cbmT tol) ∧
      (∀ fuel passes st',
        onePass gws cbms gwT cbmT tol k cur bestErr = .inr st' →
        st'.improved = false →
        loop gws cbms gwT cbmT tol k (fuel + 1) cur bestErr passes =
          (finalize gws cbms gwT cbmT tol cur, passes + 1)) ∧
      (∀ fuel passes m,
        onePass gws cbms gwT cbmT tol k cur bestErr = .inl m →
        loop gws cbms gwT cbmT tol k (fuel + 1) cur bestErr passes =
          (m, passes + 1)) := by
  intro gws cbms gwT cbmT tol k cur bestErr
  have hpass := passGo_err gws cbms gwT cbmT tol (List.range k)
    ⟨cur, bestErr, false⟩
  refine ⟨?_, ?_, ?_, ?_⟩
  · intro st' h
    unfold onePass at h
    have h1 := hpass.1 st' h
    rcases h1.2 with rfl | ⟨himp, hlt, herr, hcl⟩
    · refine ⟨h1.1, ?_, fun _ => rfl⟩
      intro habs
      exact (Bool.false_ne_true habs).elim
    · refine ⟨h1.1, fun _ => ⟨hlt, herr, hcl⟩, fun hf => ?_⟩
      rw [hf] at himp
      cases himp
  · intro m h
    unfold onePass at h
    have h2 := hpass.2 m h
    exact ⟨h2.1, h2.2.2.2.1, h2.2.2.2.2⟩
  · intro fuel passes st' h himp
    simp only [loop]
    rw [h]
    dsimp only
    rw [if_neg (by rw [himp]; exact Bool.false_ne_true)]
  · intro fuel passes m h
    simp only [loop]
    rw [h]

/-- C2 witness: a pass over a one-item pool with the single slot
occupied leaves the state unchanged (`improved = False`), the error does
not increase, and the loop stops immediately with the finalized best. -/
theorem robust_pass_monotone_witness :
    onePass [1] [1] 4 4 1 1 [0] 6 = .inr ⟨[0], 6, false⟩ ∧
    (⟨[0], 6, false⟩ : PassState).bestErr ≤ 6 ∧
    loop [1] [1] 4 4 1 1 1 [0] 6 0 = (finalize [1] [1] 4 4 1 [0], 1) := by
  have heval : onePass [1] [1] 4 4 1 1 [0] 6 = .inr ⟨[0], 6, false⟩ := by
    decide
  refine ⟨heval, ?_, ?_⟩
  · exact ((robust_pass_monotone [1] [1] 4 4 1 1 [0] 6).1
      ⟨[0], 6, false⟩ heval).1
  · exact (robust_pass_monotone [1] [1] 4 4 1 1 [0] 6).2.2.1 0 0
      ⟨[0], 6, false⟩ heval rfl

/-- C1 witness: the exactness theorem applied to the two-item pool
`[(1,1), (2,2)]` with `k = 1` and targets `(2, 2)`: the singleton `[1]`
is a feasible subset. -/
theorem exact_match_first_fit_witness :
    ([1, 2] : List ℚ).length ≤ MAX_EXACT_N ∧ 0 < 1 ∧
    ([1] : List ℕ).Sublist (List.range ([1, 2] : List ℚ).length) ∧
    ([1] : List ℕ).length = 1 ∧ close2 (sumAt [1, 2] [1]) 2 (1/10) ∧
    ∃ c : List ℕ,
      exact_subset_match [1, 2] [1, 2] 1 2 2 (1/10) =
        ⟨true, c, some (sumAt [1, 2] c), some (sumAt [1, 2] c)⟩ ∧
      find_subset_match [1, 2] [1, 2] 1 2 2 (1/10) =
        ⟨true, c, some (sumAt [1, 2] c), some (sumAt [1, 2] c), "exact"⟩ ∧
      close2 (sumAt [1, 2] c) 2 (1/10) ∧ close2 (sumAt [1, 2] c) 2 (1/10) ∧
      c.Sublist (List.range ([1, 2] : List ℚ).length) ∧ c.length = 1 ∧
      ∃ pre suf,
        comb 1 (List.range ([1, 2] : List ℚ).length) = pre ++ c :: suf ∧
        ∀ d ∈ pre,
          ¬(close2 (sumAt [1, 2] d) 2 (1/10) ∧
            close2 (sumAt [1, 2] d) 2 (1/10)) := by
  have hsub : ([1] : List ℕ).Sublist (List.range ([1, 2] : List ℚ).length) :=
    List.sublist_cons_self 0 [1]
  have hcl : close2 (sumAt [1, 2] [1]) 2 (1/10) := by
    norm_num [close2, sumAt]
  exact ⟨by norm_num [MAX_EXACT_N], Nat.one_pos, hsub, rfl, hcl,
    exact_match_first_fit [1, 2] [1, 2] 1 2 2 (1/10) [1]
      (by norm_num [MAX_EXACT_N]) Nat.one_pos hsub rfl hcl hcl⟩

/-! ## Termination of the approximate matcher (C3) -/

theorem getD_replicate (x d : ℚ) :
    ∀ (n i : ℕ), i < n → (List.replicate n x).getD i d = x := by
  intro n
  induction n with
  | zero => intro i hi; exact absurd hi (Nat.not_lt_zero i)
  | succ n ih =>
    intro i hi
    cases i with
    | zero => rw [List.replicate_succ]; exact List.getD_cons_zero
    | succ i =>
      rw [List.replicate_succ, List.getD_cons_succ]
      exact ih i (by omega)

theorem insertionSort_of_all (s : ℕ → ℚ) :
    ∀ (l : List ℕ), (∀ a ∈ l, ∀ b ∈ l, s a ≤ s b) →
      l.insertionSort (fun i j => s i ≤ s j) = l := by
  intro l
  induction l with
  | nil => intro _; rfl
  | cons x xs ih =>
    intro h
    have hxs : xs.insertionSort (fun i j => s i ≤ s j) = xs :=
      ih (fun a ha b hb =>
        h a (List.mem_cons_of_mem _ ha) b (List.mem_cons_of_mem _ hb))
    rw [show (x :: xs).insertionSort (fun i j => s i ≤ s j) =
        (xs.insertionSort (fun i j => s i ≤ s j)).orderedInsert
          (fun i j => s i ≤ s j) x from by simp [List.insertionSort]]
    rw [hxs]
    cases xs with
    | nil => rfl
    | cons y ys =>
      have hxy : s x ≤ s y :=
        h x (List.mem_cons_self _ _) y
          (List.mem_cons_of_mem _ (List.mem_cons_self _ _))
      simp [List.orderedInsert, hxy]

theorem combinedScore_const20 :
    ∀ i, i < 20 →
      combinedScore (List.replicate 20 1) (List.replicate 20 1) 3 3 i = 0 := by
  intro i hi
  have hg := getD_replicate (1 : ℚ) 0 20 i hi
  have h3 : max (3 : ℚ) EPS = 3 := max_eq_left (by norm_num [EPS])
  have h1 : max (1 : ℚ) EPS = 1 := max_eq_left (by norm_num [EPS])
  unfold combinedScore
  dsimp only
  rw [hg, h1, List.length_replicate, List.map_replicate, h3,
    List.sum_replicate]
  push_cast [nsmul_eq_mul]
  norm_num

theorem scenario20_run :
    robustRun (List.replicate 20 1) (List.replicate 20 1) 3 3 3 TOL 300 =
      (⟨true, [0, 1, 2], some 3, some 3⟩, 0) := by
  have hsort : argsortScore
      (combinedScore (List.replicate 20 1) (List.replicate 20 1) 3 3)
      ((List.replicate 20 (1 : ℚ)).length) = List.range 20 := by
    rw [List.length_replicate]
    unfold argsortScore
    apply insertionSort_of_all
    intro a ha b hb
    rw [combinedScore_const20 a (List.mem_range.mp ha),
      combinedScore_const20 b (List.mem_range.mp hb)]
  have htake : (List.range 20).take 3 = [0, 1, 2] := by decide
  have h0 := getD_replicate (1 : ℚ) 0 20 0 (by norm_num)
  have h1 := getD_replicate (1 : ℚ) 0 20 1 (by norm_num)
  have h2 := getD_replicate (1 : ℚ) 0 20 2 (by norm_num)
  have hsum : sumAt (List.replicate 20 (1 : ℚ)) [0, 1, 2] = 3 := by
    unfold sumAt
    rw [List.map_cons, List.map_cons, List.map_cons, List.map_nil, h0, h1, h2]
    norm_num
  unfold robustRun
  rw [if_neg (by simp)]
  dsimp only
  rw [hsort, htake, hsum]
  rw [if_pos (by constructor <;> norm_num [close2, TOL])]

/-- C3: the pass counter of `robust_greedy_local` with `max_iter = 300`
never exceeds 300 for any input, and for the spec's scenario — a pool of
20 units (over the exact threshold 18) with target `k = 3` —
`find_subset_match` routes to the approximate matcher and reports a
verdict. -/
theorem robust_terminates_300 :
    (∀ (gws cbms : List ℚ) (k : ℕ) (gwT cbmT tol : ℚ),
      (robustRun gws cbms k gwT cbmT tol 300).2 ≤ 300) ∧
    find_subset_match (List.replicate 20 1) (List.replicate 20 1) 3 3 3
        TOL =
      ⟨true, [0, 1, 2], some 3, some 3, "robust-greedy-local"⟩ := by
  constructor
  · intro gws cbms k gwT cbmT tol
    unfold robustRun
    by_cases hg : gws.length < k ∨ k = 0
    · rw [if_pos hg]
      norm_num
    · rw [if_neg hg]
      dsimp only
      split_ifs with hcl
      · norm_num
      · have := loop_passes_le gws cbms gwT cbmT tol k 300
          ((argsortScore (combinedScore gws cbms gwT cbmT)
            gws.length).take k)
          (calcError gws cbms gwT cbmT ((argsortScore
            (combinedScore gws cbms gwT cbmT) gws.length).take k)) 0
        simpa using this
  · unfold find_subset_match
    rw [if_neg (by simp), if_neg (by simp [MAX_EXACT_N])]
    dsimp only
    unfold robust_greedy_local
    rw [scenario20_run]

end SkuMaster
